import Mathlib

/-!
Verification of the bet-computation and risk-aggregation engine of the
Bookielocal repository (frontend/src/lib/expand.ts, compute.ts, payout.ts,
drawPeriod.ts and shared/schemas/index.ts), as a shallow embedding.

Modelling conventions:
* JS `number` is modelled as `ℤ` (the engine only adds, multiplies and
  compares monetary amounts — no division occurs — so exact integer
  arithmetic in minor currency units is a faithful model).
* JS strings are Lean `String`s; `raw[i]` becomes `raw.data.getD i`.
* Throwing functions return `Except NumError _`.
* A JS `Map` (insertion-ordered, unique keys) is an association list that is
  updated in place for an existing key and appended to for a new key.
* Record fields that no function under verification reads (ids, timestamps,
  rounds, sync flags) are omitted from the embedded structures.
-/

namespace Bookie

/-- The eight bet categories (shared/schemas/index.ts `CategoryEnum`).
Lean identifiers cannot start with a digit, hence the `c` prefix. -/
inductive Category
  | c3top
  | c3tod
  | c3down
  | c3back
  | c2top
  | c2tod
  | c2down
  | c2back
deriving DecidableEq

/-- shared/schemas/index.ts `CATEGORY_DIGIT_LENGTH`. -/
def CATEGORY_DIGIT_LENGTH : Category → Nat
  | .c3top => 3
  | .c3tod => 3
  | .c3down => 3
  | .c3back => 3
  | .c2top => 2
  | .c2tod => 2
  | .c2down => 2
  | .c2back => 2

/-- The two distinguishable validation errors thrown by `validateNumber`
(expand.ts): non-numeric input, and wrong digit count for the category. -/
inductive NumError
  | invalidFormat (raw : String)
  | invalidLength (raw : String) (category : Category)
deriving DecidableEq

/-- expand.ts `getUniquePermutations` inner `permute`, before deduplication:
for each index `i` the element `arr[i]` is prepended to every permutation of
the remaining elements (`[...arr.slice(0, i), ...arr.slice(i + 1)]`), indices
in ascending order.  Recursion is fuelled by the list length. -/
def permsFuel : Nat → List Char → List (List Char)
  | _, [] => [[]]
  | 0, _ :: _ => []
  | Nat.succ n, arr =>
    (List.range arr.length).flatMap
      (fun i => (permsFuel n (arr.eraseIdx i)).map (fun p => arr.getD i ' ' :: p))

/-- All permutations of `chars` in the generation order of expand.ts
`permute`, duplicates included. -/
def perms (chars : List Char) : List (List Char) :=
  permsFuel chars.length chars

/-- The `seen`-set filtering of expand.ts `getUniquePermutations`: keep the
first occurrence of every permutation, in generation order. -/
def dedupKeepFirst (seen : List (List Char)) : List (List Char) → List (List Char)
  | [] => []
  | x :: xs =>
    if x ∈ seen then dedupKeepFirst seen xs
    else x :: dedupKeepFirst (x :: seen) xs

/-- expand.ts `getUniquePermutations`. -/
def getUniquePermutations (chars : List Char) : List (List Char) :=
  dedupKeepFirst [] (perms chars)

/-- The numeric test (regex match of one or more digits): nonempty and all
characters are decimal digits. -/
def isNumericString (raw : String) : Bool :=
  !raw.data.isEmpty && raw.data.all (fun c => c.isDigit)

/-- expand.ts `validateNumber`: format check first, then length check. -/
def validateNumber (raw : String) (category : Category) : Except NumError Unit :=
  if isNumericString raw = true then
    if raw.length = CATEGORY_DIGIT_LENGTH category then Except.ok ()
    else Except.error (NumError.invalidLength raw category)
  else Except.error (NumError.invalidFormat raw)

/-- Lexicographic comparison of char lists by code point, i.e. the order
the default JavaScript string comparison uses (code units; identical on the
basic plane). -/
def lexLeChars : List Char → List Char → Bool
  | [], _ => true
  | _ :: _, [] => false
  | a :: as, b :: bs => if a = b then lexLeChars as bs else decide (a < b)

/-- Whether `a` compares at most `b` in JavaScript string order. -/
def strLe (a b : String) : Bool :=
  lexLeChars a.data b.data

/-- JavaScript `Array.prototype.sort` on strings: lexicographic ascending,
stable (modelled by a stable insertion sort; for a comparator-consistent
total order the stable-sorted result is unique, so the algorithm choice is
immaterial). -/
def sortStrings (l : List String) : List String :=
  l.insertionSort (fun a b => strLe a b = true)

/-- expand.ts `expandNumber`: validate, then permute for `3tod`, swap for
`2tod`, identity for every other category. -/
def expandNumber (raw : String) (category : Category) : Except NumError (List String) :=
  match validateNumber raw category with
  | Except.error e => Except.error e
  | Except.ok _ =>
    if category = Category.c3tod then
      Except.ok (sortStrings ((getUniquePermutations raw.data).map (fun p => String.mk p)))
    else if category = Category.c2tod then
      let swapped := String.mk [raw.data.getD 1 ' ', raw.data.getD 0 ' ']
      if raw = swapped then Except.ok [raw]
      else Except.ok (sortStrings [raw, swapped])
    else
      Except.ok [raw]

/-- The distinct characters of `raw`, in first-occurrence order (the code
takes the size of a character Set). -/
def dedupChars (seen : List Char) : List Char → List Char
  | [] => []
  | c :: cs =>
    if c ∈ seen then dedupChars seen cs
    else c :: dedupChars (c :: seen) cs

/-- expand.ts `getExpansionCount`. -/
def getExpansionCount (raw : String) (category : Category) : Nat :=
  if category = Category.c3tod then
    let u := (dedupChars [] raw.data).length
    if u = 1 then 1
    else if u = 2 then 3
    else 6
  else if category = Category.c2tod then
    if raw.data.getD 0 ' ' = raw.data.getD 1 ' ' then 1 else 2
  else 1

/-- shared/schemas/index.ts `PerComboTotal`. -/
structure PerComboTotal where
  combo : String
  unitPrice : ℤ
  quantity : ℤ
  soldAmount : ℤ
  payoutRate : ℤ
deriving DecidableEq

/-- shared/schemas/index.ts `BlockedNumber` (the `id` field is never read by
the engine and is omitted). -/
structure BlockedNumber where
  number : String
  category : Category
  payoutOverride : ℤ
  enabled : Bool
deriving DecidableEq

/-- The part of shared/schemas/index.ts `Settings` the engine reads:
`settings.payouts[category]`. -/
structure Settings where
  payouts : Category → ℤ

/-- The input fields of one wager line: `Entry` with the three derived
fields omitted. -/
structure EntryInput where
  category : Category
  raw : String
  unitPrice : ℤ
  quantity : ℤ
deriving DecidableEq

/-- shared/schemas/index.ts `Entry`: input fields plus the optional derived
fields. -/
structure Entry extends EntryInput where
  expanded : Option (List String)
  perComboTotals : Option (List PerComboTotal)
  total : Option ℤ
deriving DecidableEq

/-- The part of shared/schemas/index.ts `Ticket` the engine reads. -/
structure Ticket where
  agentId : String
  date : String
  entries : List Entry
  billTotal : ℤ
  deleted : Bool
deriving DecidableEq

/-- compute.ts `findBlockedNumber`: the first enabled override whose number
and category both match. -/
def findBlockedNumber (combo : String) (category : Category)
    (blockedNumbers : List BlockedNumber) : Option BlockedNumber :=
  blockedNumbers.find? (fun b => b.number == combo && b.category == category && b.enabled)

/-- The callback of `expanded.map` in compute.ts `computeEntryTotals`: one
per-combo record, with the blocked-number override applied when present and
the full stake as sold amount. -/
def perComboOf (entry : EntryInput) (settings : Settings)
    (blockedNumbers : List BlockedNumber) (combo : String) : PerComboTotal :=
  let blocked := findBlockedNumber combo entry.category blockedNumbers
  let payoutRate := match blocked with
    | some b => b.payoutOverride
    | none => settings.payouts entry.category
  let soldAmount := entry.unitPrice * entry.quantity
  { combo := combo
    unitPrice := entry.unitPrice
    quantity := entry.quantity
    soldAmount := soldAmount
    payoutRate := payoutRate }

/-- compute.ts `computeEntryTotals`. -/
def computeEntryTotals (entry : EntryInput) (settings : Settings)
    (blockedNumbers : List BlockedNumber) : Except NumError Entry :=
  match expandNumber entry.raw entry.category with
  | Except.error e => Except.error e
  | Except.ok expanded =>
    let isTodCategory := entry.category = Category.c3tod ∨ entry.category = Category.c2tod
    let perComboTotals : List PerComboTotal :=
      expanded.map (perComboOf entry settings blockedNumbers)
    let total :=
      if isTodCategory then entry.unitPrice * entry.quantity
      else perComboTotals.foldl (fun sum combo => sum + combo.soldAmount) 0
    Except.ok
      { toEntryInput := entry
        expanded := some expanded
        perComboTotals := some perComboTotals
        total := some total }

/-- The part of shared/schemas/index.ts `LotteryResult` read by
payout.ts `computeActualPayout`; absent optional fields are `none`. -/
structure LotteryResult where
  threeTop : Option String
  twoDown : Option String
  threeTod3 : Option String
  threeTod4 : Option String
deriving DecidableEq

/-- JavaScript `s.slice(-2)`: the last two characters (the whole string when
it is shorter). -/
def sliceLast2 (s : String) : String :=
  String.mk (s.data.drop (s.data.length - 2))

/-- payout.ts: `const twoTop = threeTop ? threeTop.slice(-2) : ""`. -/
def twoTopOf (result : LotteryResult) : String :=
  match result.threeTop with
  | some s => sliceLast2 s
  | none => ""

/-- payout.ts `isWin`: the switch deciding whether a combo wins under the
posted result.  Categories not covered by the switch never win. -/
def isWin (result : LotteryResult) (combo : String) (category : Category) : Bool :=
  match category with
  | Category.c3top => result.threeTop == some combo
  | Category.c3tod => result.threeTop == some combo
  | Category.c2top => twoTopOf result == combo
  | Category.c2down => result.twoDown == some combo
  | Category.c3down => result.threeTod3 == some combo || result.threeTod4 == some combo
  | _ => false

/-- The innermost loop of payout.ts `computeActualPayout`: accumulate
`payoutRate * unitPrice * quantity` over the winning items of one entry. -/
def payoutItems (result : LotteryResult) (category : Category)
    (tp : ℤ) (items : List PerComboTotal) : ℤ :=
  items.foldl
    (fun tp item =>
      if isWin result item.combo category then
        tp + item.payoutRate * item.unitPrice * item.quantity
      else tp)
    tp

/-- The per-entry step of payout.ts `computeActualPayout`: entries without
`perComboTotals` are skipped (`continue`). -/
def payoutEntryStep (result : LotteryResult) (tp : ℤ) (entry : Entry) : ℤ :=
  match entry.perComboTotals with
  | none => tp
  | some items => payoutItems result entry.category tp items

/-- The per-ticket step of payout.ts `computeActualPayout`: soft-deleted
tickets are skipped (`continue`). -/
def payoutTicketStep (result : LotteryResult) (tp : ℤ) (ticket : Ticket) : ℤ :=
  if ticket.deleted then tp
  else ticket.entries.foldl (payoutEntryStep result) tp

/-- payout.ts `computeActualPayout`: accumulate
`payoutRate * unitPrice * quantity` over every winning per-combo record of
every entry of every non-deleted ticket. -/
def computeActualPayout (tickets : List Ticket) (result : LotteryResult) : ℤ :=
  tickets.foldl (payoutTicketStep result) 0

/-- One value of the compute.ts `aggregateComboSales` map.  The map key
`` `${category}:${combo}` `` is in bijection with the pair
`(category, combo)` (category tags contain no colon), so the embedded map is
keyed by that pair directly. -/
structure ComboSale where
  combo : String
  category : Category
  soldAmount : ℤ
deriving DecidableEq

/-- The map key of one `aggregateComboSales` record:
`` `${category}:${combo}` ``, embedded as the pair it encodes. -/
def comboKey (d : ComboSale) : Category × String :=
  (d.category, d.combo)

/-- One step of the compute.ts `aggregateComboSales` loop body: add to the
existing amount for the key, or append a fresh map record. -/
def upsertComboSale (m : List ComboSale) (kk : Category × String)
    (amount : ℤ) : List ComboSale :=
  if m.any (fun d => comboKey d == kk) then
    m.map (fun d =>
      if comboKey d == kk then { d with soldAmount := d.soldAmount + amount }
      else d)
  else
    m ++ [{ combo := kk.2, category := kk.1, soldAmount := amount }]

/-- The per-entry step of compute.ts `aggregateComboSales`: entries without
`perComboTotals` are skipped (`continue`). -/
def aggEntryStep (m : List ComboSale) (entry : Entry) : List ComboSale :=
  match entry.perComboTotals with
  | none => m
  | some ps =>
    ps.foldl (fun m p => upsertComboSale m (entry.category, p.combo) p.soldAmount) m

/-- The per-ticket step of compute.ts `aggregateComboSales`: soft-deleted
tickets are skipped (`continue`). -/
def aggTicketStep (m : List ComboSale) (ticket : Ticket) : List ComboSale :=
  if ticket.deleted then m
  else ticket.entries.foldl aggEntryStep m

/-- compute.ts `aggregateComboSales`: per-(category, combo) sold amounts over
every `perComboTotal` of every entry of every non-deleted ticket, in
insertion order. -/
def aggregateComboSales (tickets : List Ticket) : List ComboSale :=
  tickets.foldl aggTicketStep []

/-- shared/schemas/index.ts `RiskyNumber`. -/
structure RiskyNumber where
  combo : String
  category : Category
  soldAmount : ℤ
  threshold : ℤ
deriving DecidableEq

/-- Descending order on `soldAmount`: the comparator
`(a, b) => b.soldAmount - a.soldAmount` of compute.ts `findRiskyNumbers`. -/
def riskyDesc (a b : RiskyNumber) : Prop :=
  b.soldAmount ≤ a.soldAmount

instance : DecidableRel riskyDesc :=
  fun a b => inferInstanceAs (Decidable (b.soldAmount ≤ a.soldAmount))

instance : IsTotal RiskyNumber riskyDesc :=
  ⟨fun a b => le_total b.soldAmount a.soldAmount⟩

instance : IsTrans RiskyNumber riskyDesc :=
  ⟨fun _ _ _ h1 h2 => le_trans h2 h1⟩

/-- compute.ts `findRiskyNumbers`: every aggregate strictly above the
threshold, sorted descending by sold amount (JS sort is stable, modelled by
a stable insertion sort). -/
def findRiskyNumbers (tickets : List Ticket) (threshold : ℤ) : List RiskyNumber :=
  let comboSales := aggregateComboSales tickets
  let riskyNumbers : List RiskyNumber :=
    (comboSales.filter (fun d => threshold < d.soldAmount)).map
      (fun d =>
        { combo := d.combo
          category := d.category
          soldAmount := d.soldAmount
          threshold := threshold })
  riskyNumbers.insertionSort riskyDesc

/-- compute.ts `NumberTotal`. -/
structure NumberTotal where
  number : String
  category : Category
  totalAmount : ℤ
  exceedsCeiling : Bool
deriving DecidableEq

/-- compute.ts `getNumberTotals` loop: `entry.expanded || [entry.raw]`. -/
def expandedOrRaw (e : Entry) : List String :=
  match e.expanded with
  | some l => l
  | none => [e.raw]

/-- compute.ts `getNumberTotals` loop:
`entry.perComboTotals?.find((p) => p.combo === num)?.soldAmount ?? entry.unitPrice`. -/
def perComboAmount (e : Entry) (num : String) : ℤ :=
  match e.perComboTotals with
  | none => e.unitPrice
  | some ps =>
    match ps.find? (fun p => p.combo == num) with
    | none => e.unitPrice
    | some p => p.soldAmount

/-- The map key of one `getNumberTotals` record: `` `${category}-${num}` ``,
embedded as the pair it encodes. -/
def numberKey (d : NumberTotal) : Category × String :=
  (d.category, d.number)

/-- One step of the compute.ts `getNumberTotals` loop body: add the amount
and refresh `exceedsCeiling` (`total >= perNumberMax`, non-strict), or
insert a fresh record. -/
def upsertNumberTotal (m : List NumberTotal) (kk : Category × String)
    (amount perNumberMax : ℤ) : List NumberTotal :=
  if m.any (fun d => numberKey d == kk) then
    m.map (fun d =>
      if numberKey d == kk then
        { d with
          totalAmount := d.totalAmount + amount
          exceedsCeiling := decide (perNumberMax ≤ d.totalAmount + amount) }
      else d)
  else
    m ++ [{ number := kk.2
            category := kk.1
            totalAmount := amount
            exceedsCeiling := decide (perNumberMax ≤ amount) }]

/-- The per-entry step of compute.ts `getNumberTotals`: one upsert per
expanded number of the entry. -/
def numEntryStep (perNumberMax : ℤ) (m : List NumberTotal) (entry : Entry) :
    List NumberTotal :=
  (expandedOrRaw entry).foldl
    (fun m num =>
      upsertNumberTotal m (entry.category, num) (perComboAmount entry num) perNumberMax)
    m

/-- The per-ticket step of compute.ts `getNumberTotals`. -/
def numTicketStep (perNumberMax : ℤ) (m : List NumberTotal) (ticket : Ticket) :
    List NumberTotal :=
  ticket.entries.foldl (numEntryStep perNumberMax) m

/-- compute.ts `getNumberTotals`: per-(category, expanded number) totals over
non-deleted tickets dated exactly `date`. -/
def getNumberTotals (tickets : List Ticket) (date : String) (perNumberMax : ℤ) :
    List NumberTotal :=
  let filteredTickets := tickets.filter (fun t => !t.deleted && t.date == date)
  filteredTickets.foldl (numTicketStep perNumberMax) []

/-- A parsed calendar date as JS `Date` exposes it in drawPeriod.ts:
`getFullYear`, zero-based `getMonth`, `getDate`. -/
structure GDate where
  year : Int
  month : Nat
  day : Nat
deriving DecidableEq

/-- drawPeriod.ts `isDateInDrawPeriod`, on the parsed ticket date and parsed
period anchor date. -/
def isDateInDrawPeriod (t dp : GDate) : Bool :=
  if dp.day = 1 then
    let prevMonth : Nat := if dp.month = 0 then 11 else dp.month - 1
    let prevYear : Int := if dp.month = 0 then dp.year - 1 else dp.year
    (t.year == prevYear && t.month == prevMonth && decide (18 ≤ t.day)) ||
    (t.year == dp.year && t.month == dp.month && t.day == 1)
  else if dp.day = 16 then
    t.year == dp.year && t.month == dp.month && decide (2 ≤ t.day) && decide (t.day ≤ 17)
  else
    false

/-!  Specification-side definitions, written after the wording of the claims, to be
compared with the embedded functions above. -/

/-- The flattened stream of `((category, combo), soldAmount)` contributions
that `aggregateComboSales` consumes: every per-combo record of every entry of
every non-deleted ticket, in iteration order. -/
def comboContribs (tickets : List Ticket) : List ((Category × String) × ℤ) :=
  (tickets.filter (fun t => !t.deleted)).flatMap (fun t =>
    t.entries.flatMap (fun e =>
      (e.perComboTotals.getD []).map (fun p => ((e.category, p.combo), p.soldAmount))))

/-- The aggregate sold amount of one `(category, combo)` pair: the sum of
`soldAmount` over all per-combo records of all entries of all non-deleted
tickets carrying that pair. -/
def comboKeyTotal (tickets : List Ticket) (category : Category) (combo : String) : ℤ :=
  (((comboContribs tickets).filter (fun kv => kv.1 = (category, combo))).map
    (fun kv => kv.2)).sum

/-- The flattened stream of `((category, number), amount)` contributions that
`getNumberTotals` consumes: every expanded number of every entry of every
non-deleted ticket dated exactly `date`, with the matching per-combo sold
amount (or the entry unit price as fallback). -/
def numberContribs (tickets : List Ticket) (date : String) :
    List ((Category × String) × ℤ) :=
  (tickets.filter (fun t => !t.deleted && t.date == date)).flatMap (fun t =>
    t.entries.flatMap (fun e =>
      (expandedOrRaw e).map (fun num => ((e.category, num), perComboAmount e num))))

/-- The aggregate amount of one `(category, number)` pair in the scope of
`getNumberTotals`. -/
def numberKeyTotal (tickets : List Ticket) (date : String) (category : Category)
    (num : String) : ℤ :=
  (((numberContribs tickets date).filter (fun kv => kv.1 = (category, num))).map
    (fun kv => kv.2)).sum

/-- The per-combo payout amounts of every winning combo of every entry of
every non-deleted ticket, per the description in the claim of
`computeActualPayout`. -/
def winningAmounts (tickets : List Ticket) (result : LotteryResult) : List ℤ :=
  (tickets.filter (fun t => !t.deleted)).flatMap (fun t =>
    t.entries.flatMap (fun e =>
      ((e.perComboTotals.getD []).filter (fun p => isWin result p.combo e.category)).map
        (fun p => p.payoutRate * p.unitPrice * p.quantity)))

/-- The absolute month index, year times 12 plus month, used to state the
draw period claim (month M − 1 across year boundaries). -/
def monthIndex (d : GDate) : Int :=
  d.year * 12 + d.month

/-- The amount stored in an `aggregateComboSales` map for a key (`0` when the
key is absent: the map lookup semantics). -/
def comboAmountOf (m : List ComboSale) (k : Category × String) : ℤ :=
  match m.find? (fun d => comboKey d == k) with
  | some d => d.soldAmount
  | none => 0

/-- Whether an `aggregateComboSales` map holds a record for a key. -/
def comboHasKey (m : List ComboSale) (k : Category × String) : Bool :=
  m.any (fun d => comboKey d == k)

/-- Replaying a contribution stream into an `aggregateComboSales` map. -/
def applyComboContribs (m : List ComboSale) (l : List ((Category × String) × ℤ)) :
    List ComboSale :=
  l.foldl (fun m kv => upsertComboSale m kv.1 kv.2) m

/-- The amount stored in a `getNumberTotals` map for a key. -/
def numberAmountOf (m : List NumberTotal) (k : Category × String) : ℤ :=
  match m.find? (fun d => numberKey d == k) with
  | some d => d.totalAmount
  | none => 0

/-- Whether a `getNumberTotals` map holds a record for a key. -/
def numberHasKey (m : List NumberTotal) (k : Category × String) : Bool :=
  m.any (fun d => numberKey d == k)

/-- Replaying a contribution stream into a `getNumberTotals` map. -/
def applyNumberContribs (perNumberMax : ℤ) (m : List NumberTotal)
    (l : List ((Category × String) × ℤ)) : List NumberTotal :=
  l.foldl (fun m kv => upsertNumberTotal m kv.1 kv.2 perNumberMax) m

/-- The part of a keyed contribution stream hitting one key, summed. -/
def sumForKey (l : List ((Category × String) × ℤ)) (k : Category × String) : ℤ :=
  ((l.filter (fun kv => kv.1 = k)).map (fun kv => kv.2)).sum

/-! Concrete fixtures used by the witness theorems. -/

/-- The default payout table of the repository (shared/schemas `DEFAULT_PAYOUTS`). -/
def samplePayouts : Category → ℤ
  | .c3top => 800
  | .c3tod => 130
  | .c3down => 400
  | .c3back => 130
  | .c2top => 70
  | .c2tod => 35
  | .c2down => 70
  | .c2back => 35

def sampleSettings : Settings := ⟨samplePayouts⟩

def sampleEntryInput : EntryInput := ⟨Category.c3top, "123", 100, 1⟩

def sampleEntryOut : Entry :=
  ⟨⟨Category.c3top, "123", 100, 1⟩, some ["123"], some [⟨"123", 100, 1, 100, 800⟩], some 100⟩

def sampleBlocked : BlockedNumber := ⟨"123", Category.c3top, 10, true⟩

def sampleEntryBlockedOut : Entry :=
  ⟨⟨Category.c3top, "123", 100, 1⟩, some ["123"], some [⟨"123", 100, 1, 100, 10⟩], some 100⟩

def sampleTicket : Ticket :=
  ⟨"a1", "2024-01-01", [⟨⟨Category.c3top, "123", 6000, 1⟩, some ["123"],
    some [⟨"123", 6000, 1, 6000, 800⟩], some 6000⟩], 6000, false⟩

def sampleResult : LotteryResult := ⟨some "123", some "45", some "678", none⟩

def sampleEntryNoCombos : Entry :=
  ⟨⟨Category.c3top, "123", 100, 5⟩, some ["123"], some [], some 0⟩

/-! Map lemmas for `aggregateComboSales`. -/

theorem comboKey_update (d : ComboSale) (q : ℤ) :
    comboKey { d with soldAmount := d.soldAmount + q } = comboKey d := rfl

theorem comboAmountOf_cons_pos (d : ComboSale) (m : List ComboSale)
    (k : Category × String) (h : (comboKey d == k) = true) :
    comboAmountOf (d :: m) k = d.soldAmount := by
  unfold comboAmountOf
  rw [List.find?_cons_of_pos (p := fun d => comboKey d == k) _ h]

theorem comboAmountOf_cons_neg (d : ComboSale) (m : List ComboSale)
    (k : Category × String) (h : (comboKey d == k) = false) :
    comboAmountOf (d :: m) k = comboAmountOf m k := by
  unfold comboAmountOf
  rw [List.find?_cons_of_neg (p := fun d => comboKey d == k) _ (by simp [h])]

theorem comboAmountOf_map_update (m : List ComboSale) (k : Category × String) (q : ℤ)
    (h : m.any (fun d => comboKey d == k) = true) :
    comboAmountOf
      (m.map (fun d => if comboKey d == k then { d with soldAmount := d.soldAmount + q } else d))
      k = comboAmountOf m k + q := by
  induction m with
  | nil => simp at h
  | cons d m ih =>
    by_cases hd : (comboKey d == k) = true
    · have hd2 : (comboKey ({ d with soldAmount := d.soldAmount + q } : ComboSale) == k) = true := hd
      rw [List.map_cons, if_pos hd, comboAmountOf_cons_pos _ _ _ hd2,
        comboAmountOf_cons_pos _ _ _ hd]
    · have hdf : (comboKey d == k) = false := by
        cases hb : (comboKey d == k) with
        | false => rfl
        | true => exact absurd hb hd
      have h' : m.any (fun d => comboKey d == k) = true := by
        simpa [List.any_cons, hdf] using h
      rw [List.map_cons, if_neg hd, comboAmountOf_cons_neg _ _ _ hdf,
        comboAmountOf_cons_neg _ _ _ hdf]
      exact ih h'

theorem comboAmountOf_append_fresh (m : List ComboSale) (k : Category × String) (q : ℤ)
    (h : m.any (fun d => comboKey d == k) = false) :
    comboAmountOf (m ++ [{ combo := k.2, category := k.1, soldAmount := q }]) k = q := by
  induction m with
  | nil =>
    have hk : (comboKey ({ combo := k.2, category := k.1, soldAmount := q } : ComboSale) == k)
        = true := by
      simp [comboKey]
    rw [List.nil_append, comboAmountOf_cons_pos _ _ _ hk]
  | cons d m ih =>
    have hd : (comboKey d == k) = false := by
      cases hb : (comboKey d == k) with
      | false => rfl
      | true => simp [List.any_cons, hb] at h
    have h' : m.any (fun d => comboKey d == k) = false := by
      simpa [List.any_cons, hd] using h
    rw [List.cons_append, comboAmountOf_cons_neg _ _ _ hd]
    exact ih h'

theorem comboAmountOf_of_not_hasKey (m : List ComboSale) (k : Category × String)
    (h : m.any (fun d => comboKey d == k) = false) :
    comboAmountOf m k = 0 := by
  induction m with
  | nil => rfl
  | cons d m ih =>
    have hd : (comboKey d == k) = false := by
      cases hb : (comboKey d == k) with
      | false => rfl
      | true => simp [List.any_cons, hb] at h
    have h' : m.any (fun d => comboKey d == k) = false := by
      simpa [List.any_cons, hd] using h
    rw [comboAmountOf_cons_neg _ _ _ hd]
    exact ih h'

theorem comboAmountOf_upsert_self (m : List ComboSale) (k : Category × String) (q : ℤ) :
    comboAmountOf (upsertComboSale m k q) k = comboAmountOf m k + q := by
  unfold upsertComboSale
  by_cases h : m.any (fun d => comboKey d == k) = true
  · rw [if_pos h]
    exact comboAmountOf_map_update m k q h
  · rw [if_neg h]
    rw [comboAmountOf_append_fresh m k q (by simpa using h),
      comboAmountOf_of_not_hasKey m k (by simpa using h)]
    ring

theorem comboAmountOf_upsert_other (m : List ComboSale) (k k' : Category × String)
    (q : ℤ) (hne : k' ≠ k) :
    comboAmountOf (upsertComboSale m k q) k' = comboAmountOf m k' := by
  unfold upsertComboSale
  by_cases h : m.any (fun d => comboKey d == k) = true
  · rw [if_pos h]
    clear h
    induction m with
    | nil => rfl
    | cons d m ih =>
      by_cases hd : (comboKey d == k) = true
      · have hd' : (comboKey d == k') = false := by
          have hdk : comboKey d = k := by simpa using hd
          have hkk : ¬ k = k' := fun h => hne h.symm
          simp [hdk, hkk]
        have hd2 : (comboKey ({ d with soldAmount := d.soldAmount + q } : ComboSale) == k')
            = false := hd'
        rw [List.map_cons, if_pos hd, comboAmountOf_cons_neg _ _ _ hd2,
          comboAmountOf_cons_neg _ _ _ hd', ih]
      · by_cases hd' : (comboKey d == k') = true
        · rw [List.map_cons, if_neg hd, comboAmountOf_cons_pos _ _ _ hd',
            comboAmountOf_cons_pos _ _ _ hd']
        · have hdf : (comboKey d == k') = false := by
            cases hb : (comboKey d == k') with
            | false => rfl
            | true => exact absurd hb hd'
          rw [List.map_cons, if_neg hd, comboAmountOf_cons_neg _ _ _ hdf,
            comboAmountOf_cons_neg _ _ _ hdf, ih]
  · rw [if_neg h]
    clear h
    induction m with
    | nil =>
      have hk : (comboKey ({ combo := k.2, category := k.1, soldAmount := q } : ComboSale) == k')
          = false := by
        simp [comboKey, Prod.ext_iff]
        intro h1 h2
        exact absurd (Prod.ext h1.symm h2.symm : k' = k) hne
      rw [List.nil_append, comboAmountOf_cons_neg _ _ _ hk]
    | cons d m ih =>
      by_cases hd : (comboKey d == k') = true
      · rw [List.cons_append, comboAmountOf_cons_pos _ _ _ hd,
          comboAmountOf_cons_pos _ _ _ hd]
      · have hdf : (comboKey d == k') = false := by
          cases hb : (comboKey d == k') with
          | false => rfl
          | true => exact absurd hb hd
        rw [List.cons_append, comboAmountOf_cons_neg _ _ _ hdf,
          comboAmountOf_cons_neg _ _ _ hdf, ih]

theorem comboHasKey_upsert_self (m : List ComboSale) (k : Category × String) (q : ℤ) :
    comboHasKey (upsertComboSale m k q) k = true := by
  unfold comboHasKey upsertComboSale
  by_cases h : m.any (fun d => comboKey d == k) = true
  · rw [if_pos h]
    obtain ⟨d, hd, hdk⟩ := List.any_eq_true.mp h
    refine List.any_eq_true.mpr ⟨_, List.mem_map_of_mem _ hd, ?_⟩
    rw [if_pos hdk]
    exact hdk
  · rw [if_neg h]
    refine List.any_eq_true.mpr ⟨_, List.mem_append_right _ (List.mem_singleton.mpr rfl), ?_⟩
    simp [comboKey]

theorem comboHasKey_upsert_other (m : List ComboSale) (k k' : Category × String)
    (q : ℤ) (hne : k' ≠ k) :
    comboHasKey (upsertComboSale m k q) k' = comboHasKey m k' := by
  unfold comboHasKey upsertComboSale
  by_cases h : m.any (fun d => comboKey d == k) = true
  · rw [if_pos h]
    clear h
    induction m with
    | nil => rfl
    | cons d m ih =>
      by_cases hd : (comboKey d == k) = true
      · have hd' : (comboKey d == k') = false := by
          have hdk : comboKey d = k := by simpa using hd
          have hkk : ¬ k = k' := fun h => hne h.symm
          simp [hdk, hkk]
        have hd2 : (comboKey ({ d with soldAmount := d.soldAmount + q } : ComboSale) == k')
            = false := hd'
        rw [List.map_cons, if_pos hd]
        simp only [List.any_cons, hd2, hd', Bool.false_or]
        exact ih
      · rw [List.map_cons, if_neg hd]
        simp only [List.any_cons]
        rw [ih]
  · rw [if_neg h]
    have hk : (comboKey ({ combo := k.2, category := k.1, soldAmount := q } : ComboSale) == k')
        = false := by
      simp [comboKey, Prod.ext_iff]
      intro h1 h2
      exact absurd (Prod.ext h1.symm h2.symm : k' = k) hne
    simp [List.any_append, hk]

theorem comboKeys_upsert (m : List ComboSale) (k : Category × String) (q : ℤ) :
    (upsertComboSale m k q).map comboKey =
      if comboHasKey m k = true then m.map comboKey else m.map comboKey ++ [k] := by
  unfold upsertComboSale comboHasKey
  by_cases h : m.any (fun d => comboKey d == k) = true
  · rw [if_pos h, if_pos h, List.map_map]
    refine List.map_congr_left (fun d _ => ?_)
    by_cases hd : (comboKey d == k) = true
    · simp only [Function.comp_apply, if_pos hd]
      rfl
    · simp only [Function.comp_apply, if_neg hd]
  · rw [if_neg h, if_neg h, List.map_append]
    rfl

theorem comboKeys_nodup_upsert (m : List ComboSale) (k : Category × String) (q : ℤ)
    (h : (m.map comboKey).Nodup) : ((upsertComboSale m k q).map comboKey).Nodup := by
  rw [comboKeys_upsert]
  by_cases hk : comboHasKey m k = true
  · rw [if_pos hk]
    exact h
  · rw [if_neg hk]
    refine List.Nodup.append h (List.nodup_singleton k) ?_
    intro x hx hx1
    rw [List.mem_singleton] at hx1
    subst hx1
    obtain ⟨d, hd, hdk⟩ := List.mem_map.mp hx
    exact hk (List.any_eq_true.mpr ⟨d, hd, by simp [hdk]⟩)

theorem comboAmountOf_mem (m : List ComboSale) (hnd : (m.map comboKey).Nodup)
    (d : ComboSale) (hd : d ∈ m) : comboAmountOf m (comboKey d) = d.soldAmount := by
  induction m with
  | nil => cases hd
  | cons e m ih =>
    rcases List.mem_cons.mp hd with rfl | hd2
    · exact comboAmountOf_cons_pos _ _ _ (by simp)
    · have hne : (comboKey e == comboKey d) = false := by
        have he : comboKey e ∉ m.map comboKey := (List.nodup_cons.mp (by simpa using hnd)).1
        have : comboKey d ∈ m.map comboKey := List.mem_map_of_mem _ hd2
        simp only [beq_eq_false_iff_ne, ne_eq]
        intro hcon
        rw [hcon] at he
        exact he this
      rw [comboAmountOf_cons_neg _ _ _ hne]
      exact ih (List.nodup_cons.mp (by simpa using hnd)).2 hd2

theorem applyComboContribs_append (m : List ComboSale)
    (l1 l2 : List ((Category × String) × ℤ)) :
    applyComboContribs m (l1 ++ l2) = applyComboContribs (applyComboContribs m l1) l2 :=
  List.foldl_append _ _ _ _

theorem comboAmountOf_applyComboContribs (l : List ((Category × String) × ℤ))
    (m : List ComboSale) (k : Category × String) :
    comboAmountOf (applyComboContribs m l) k = comboAmountOf m k + sumForKey l k := by
  induction l generalizing m with
  | nil => simp [applyComboContribs, sumForKey]
  | cons kv l ih =>
    have hstep : applyComboContribs m (kv :: l) = applyComboContribs (upsertComboSale m kv.1 kv.2) l := rfl
    rw [hstep, ih]
    by_cases hk : kv.1 = k
    · rw [hk, comboAmountOf_upsert_self]
      simp only [sumForKey, List.filter_cons, hk]
      simp [add_assoc]
    · rw [comboAmountOf_upsert_other _ _ _ _ (fun hcon => hk hcon.symm)]
      simp only [sumForKey, List.filter_cons]
      have : ¬ (kv.1 = k) := hk
      simp [this]

theorem comboHasKey_applyComboContribs (l : List ((Category × String) × ℤ))
    (m : List ComboSale) (k : Category × String) :
    comboHasKey (applyComboContribs m l) k =
      (comboHasKey m k || l.any (fun kv => kv.1 == k)) := by
  induction l generalizing m with
  | nil => simp [applyComboContribs]
  | cons kv l ih =>
    have hstep : applyComboContribs m (kv :: l) = applyComboContribs (upsertComboSale m kv.1 kv.2) l := rfl
    rw [hstep, ih]
    by_cases hk : kv.1 = k
    · rw [hk, comboHasKey_upsert_self]
      simp [hk]
    · rw [comboHasKey_upsert_other _ _ _ _ (fun hcon => hk hcon.symm)]
      have : (kv.1 == k) = false := by simpa using hk
      simp [this]

theorem comboKeys_nodup_applyComboContribs (l : List ((Category × String) × ℤ))
    (m : List ComboSale) (h : (m.map comboKey).Nodup) :
    ((applyComboContribs m l).map comboKey).Nodup := by
  induction l generalizing m with
  | nil => exact h
  | cons kv l ih => exact ih _ (comboKeys_nodup_upsert _ _ _ h)

theorem aggEntryStep_eq (m : List ComboSale) (e : Entry) :
    aggEntryStep m e =
      applyComboContribs m
        ((e.perComboTotals.getD []).map (fun p => ((e.category, p.combo), p.soldAmount))) := by
  unfold aggEntryStep
  cases e.perComboTotals with
  | none => rfl
  | some ps =>
    simp only [Option.getD_some]
    induction ps generalizing m with
    | nil => rfl
    | cons p ps ih =>
      rw [List.foldl_cons, List.map_cons]
      exact ih _

theorem aggEntriesFold_eq (entries : List Entry) (m : List ComboSale) :
    entries.foldl aggEntryStep m =
      applyComboContribs m
        (entries.flatMap
          (fun e => (e.perComboTotals.getD []).map (fun p => ((e.category, p.combo), p.soldAmount)))) := by
  induction entries generalizing m with
  | nil => rfl
  | cons e es ih =>
    rw [List.foldl_cons, List.flatMap_cons, applyComboContribs_append, ← aggEntryStep_eq]
    exact ih _

theorem aggTicketsFold_eq (tickets : List Ticket) (m : List ComboSale) :
    tickets.foldl aggTicketStep m = applyComboContribs m (comboContribs tickets) := by
  induction tickets generalizing m with
  | nil => rfl
  | cons t ts ih =>
    rw [List.foldl_cons]
    unfold aggTicketStep
    by_cases hdel : t.deleted = true
    · rw [if_pos hdel]
      have hfilter : (t :: ts).filter (fun t => !t.deleted) = ts.filter (fun t => !t.deleted) := by
        simp [List.filter_cons, hdel]
      unfold comboContribs
      rw [hfilter]
      exact ih m
    · rw [if_neg hdel]
      have hnd : (!t.deleted) = true := by
        cases hb : t.deleted with
        | false => rfl
        | true => exact absurd hb hdel
      have hfilter : (t :: ts).filter (fun t => !t.deleted)
          = t :: ts.filter (fun t => !t.deleted) := by
        simp [List.filter_cons, hnd]
      unfold comboContribs
      rw [hfilter, List.flatMap_cons, applyComboContribs_append, ← aggEntriesFold_eq]
      exact ih _

theorem aggregateComboSales_eq (tickets : List Ticket) :
    aggregateComboSales tickets = applyComboContribs [] (comboContribs tickets) :=
  aggTicketsFold_eq tickets []

theorem comboKeyTotal_eq_sumForKey (tickets : List Ticket) (category : Category)
    (combo : String) :
    comboKeyTotal tickets category combo = sumForKey (comboContribs tickets) (category, combo) := rfl

/-- C5: for every list of tickets and every threshold, `findRiskyNumbers`
returns exactly those (category, combo) pairs whose `soldAmount`, summed over
all `perComboTotals` of all entries of all non-soft-deleted tickets, is
strictly greater than the threshold (a pair whose aggregate exactly equals
the threshold is excluded, since every returned record satisfies the strict
inequality), and the result is sorted descending by `soldAmount`. -/
theorem C5_risky_numbers (tickets : List Ticket) (threshold : ℤ) :
    (∀ r ∈ findRiskyNumbers tickets threshold,
        threshold < r.soldAmount ∧
        r.soldAmount = comboKeyTotal tickets r.category r.combo ∧
        r.threshold = threshold) ∧
    (∀ category combo,
        (category, combo) ∈ (comboContribs tickets).map Prod.fst →
        threshold < comboKeyTotal tickets category combo →
        ∃ r ∈ findRiskyNumbers tickets threshold,
          r.category = category ∧ r.combo = combo ∧
          r.soldAmount = comboKeyTotal tickets category combo) ∧
    (findRiskyNumbers tickets threshold).Sorted riskyDesc := by
  have hagg := aggregateComboSales_eq tickets
  have hnd : ((aggregateComboSales tickets).map comboKey).Nodup := by
    rw [hagg]
    exact comboKeys_nodup_applyComboContribs _ _ (by simp)
  have hamount : ∀ d ∈ aggregateComboSales tickets,
      d.soldAmount = comboKeyTotal tickets d.category d.combo := by
    intro d hd
    have h1 : comboAmountOf (aggregateComboSales tickets) (comboKey d) = d.soldAmount :=
      comboAmountOf_mem _ hnd d hd
    rw [hagg, comboAmountOf_applyComboContribs] at h1
    have h0 : comboAmountOf [] (comboKey d) = 0 := rfl
    rw [h0, zero_add] at h1
    rw [comboKeyTotal_eq_sumForKey]
    exact h1.symm
  have hresult : findRiskyNumbers tickets threshold =
      (((aggregateComboSales tickets).filter (fun d => threshold < d.soldAmount)).map
        (fun d =>
          { combo := d.combo
            category := d.category
            soldAmount := d.soldAmount
            threshold := threshold : RiskyNumber })).insertionSort riskyDesc := rfl
  have hmem : ∀ r, r ∈ findRiskyNumbers tickets threshold ↔
      r ∈ ((aggregateComboSales tickets).filter (fun d => threshold < d.soldAmount)).map
        (fun d =>
          { combo := d.combo
            category := d.category
            soldAmount := d.soldAmount
            threshold := threshold : RiskyNumber }) := by
    intro r
    rw [hresult]
    exact (List.perm_insertionSort riskyDesc _).mem_iff
  refine ⟨?_, ?_, ?_⟩
  · intro r hr
    obtain ⟨d, hdf, hdr⟩ := List.mem_map.mp ((hmem r).mp hr)
    obtain ⟨hdm, hdp⟩ := List.mem_filter.mp hdf
    have hlt : threshold < d.soldAmount := of_decide_eq_true hdp
    subst hdr
    exact ⟨hlt, hamount d hdm, rfl⟩
  · intro category combo hk hgt
    obtain ⟨kv, hkv, hkv1⟩ := List.mem_map.mp hk
    have hany : (comboContribs tickets).any (fun kv => kv.1 == (category, combo)) = true :=
      List.any_eq_true.mpr ⟨kv, hkv, by simp [hkv1]⟩
    have hhas : comboHasKey (aggregateComboSales tickets) (category, combo) = true := by
      rw [hagg, comboHasKey_applyComboContribs]
      simp [hany]
    obtain ⟨d, hdm, hdk⟩ := List.any_eq_true.mp hhas
    have hdk2 : comboKey d = (category, combo) := by simpa using hdk
    have hcat : d.category = category := congrArg Prod.fst hdk2
    have hcombo : d.combo = combo := congrArg Prod.snd hdk2
    have hds : d.soldAmount = comboKeyTotal tickets category combo := by
      rw [hamount d hdm, hcat, hcombo]
    refine ⟨⟨d.combo, d.category, d.soldAmount, threshold⟩, ?_, hcat, hcombo, hds⟩
    refine (hmem _).mpr (List.mem_map.mpr ⟨d, ?_, rfl⟩)
    refine List.mem_filter.mpr ⟨hdm, ?_⟩
    rw [hds]
    exact decide_eq_true hgt
  · rw [hresult]
    exact List.sorted_insertionSort riskyDesc _

/-! Map lemmas for `getNumberTotals`. -/

theorem numberAmountOf_cons_pos (d : NumberTotal) (m : List NumberTotal)
    (k : Category × String) (h : (numberKey d == k) = true) :
    numberAmountOf (d :: m) k = d.totalAmount := by
  unfold numberAmountOf
  rw [List.find?_cons_of_pos (p := fun d => numberKey d == k) _ h]

theorem numberAmountOf_cons_neg (d : NumberTotal) (m : List NumberTotal)
    (k : Category × String) (h : (numberKey d == k) = false) :
    numberAmountOf (d :: m) k = numberAmountOf m k := by
  unfold numberAmountOf
  rw [List.find?_cons_of_neg (p := fun d => numberKey d == k) _ (by simp [h])]

theorem numberAmountOf_map_update (m : List NumberTotal) (k : Category × String)
    (q mx : ℤ) (h : m.any (fun d => numberKey d == k) = true) :
    numberAmountOf
      (m.map (fun d =>
        if numberKey d == k then
          { d with
            totalAmount := d.totalAmount + q
            exceedsCeiling := decide (mx ≤ d.totalAmount + q) }
        else d))
      k = numberAmountOf m k + q := by
  induction m with
  | nil => simp at h
  | cons d m ih =>
    by_cases hd : (numberKey d == k) = true
    · have hd2 : (numberKey
          ({ d with
              totalAmount := d.totalAmount + q
              exceedsCeiling := decide (mx ≤ d.totalAmount + q) } : NumberTotal) == k)
          = true := hd
      rw [List.map_cons, if_pos hd, numberAmountOf_cons_pos _ _ _ hd2,
        numberAmountOf_cons_pos _ _ _ hd]
    · have hdf : (numberKey d == k) = false := by
        cases hb : (numberKey d == k) with
        | false => rfl
        | true => exact absurd hb hd
      have h' : m.any (fun d => numberKey d == k) = true := by
        simpa [List.any_cons, hdf] using h
      rw [List.map_cons, if_neg hd, numberAmountOf_cons_neg _ _ _ hdf,
        numberAmountOf_cons_neg _ _ _ hdf]
      exact ih h'

theorem numberAmountOf_append_fresh (m : List NumberTotal) (k : Category × String)
    (q mx : ℤ) (h : m.any (fun d => numberKey d == k) = false) :
    numberAmountOf
      (m ++ [{ number := k.2, category := k.1, totalAmount := q,
               exceedsCeiling := decide (mx ≤ q) }]) k = q := by
  induction m with
  | nil =>
    have hk : (numberKey
        ({ number := k.2, category := k.1, totalAmount := q,
           exceedsCeiling := decide (mx ≤ q) } : NumberTotal) == k) = true := by
      simp [numberKey]
    rw [List.nil_append, numberAmountOf_cons_pos _ _ _ hk]
  | cons d m ih =>
    have hd : (numberKey d == k) = false := by
      cases hb : (numberKey d == k) with
      | false => rfl
      | true => simp [List.any_cons, hb] at h
    have h' : m.any (fun d => numberKey d == k) = false := by
      simpa [List.any_cons, hd] using h
    rw [List.cons_append, numberAmountOf_cons_neg _ _ _ hd]
    exact ih h'

theorem numberAmountOf_of_not_hasKey (m : List NumberTotal) (k : Category × String)
    (h : m.any (fun d => numberKey d == k) = false) :
    numberAmountOf m k = 0 := by
  induction m with
  | nil => rfl
  | cons d m ih =>
    have hd : (numberKey d == k) = false := by
      cases hb : (numberKey d == k) with
      | false => rfl
      | true => simp [List.any_cons, hb] at h
    have h' : m.any (fun d => numberKey d == k) = false := by
      simpa [List.any_cons, hd] using h
    rw [numberAmountOf_cons_neg _ _ _ hd]
    exact ih h'

theorem numberAmountOf_upsert_self (m : List NumberTotal) (k : Category × String)
    (q mx : ℤ) :
    numberAmountOf (upsertNumberTotal m k q mx) k = numberAmountOf m k + q := by
  unfold upsertNumberTotal
  by_cases h : m.any (fun d => numberKey d == k) = true
  · rw [if_pos h]
    exact numberAmountOf_map_update m k q mx h
  · rw [if_neg h]
    rw [numberAmountOf_append_fresh m k q mx (by simpa using h),
      numberAmountOf_of_not_hasKey m k (by simpa using h)]
    ring

theorem numberAmountOf_upsert_other (m : List NumberTotal) (k k' : Category × String)
    (q mx : ℤ) (hne : k' ≠ k) :
    numberAmountOf (upsertNumberTotal m k q mx) k' = numberAmountOf m k' := by
  unfold upsertNumberTotal
  by_cases h : m.any (fun d => numberKey d == k) = true
  · rw [if_pos h]
    clear h
    induction m with
    | nil => rfl
    | cons d m ih =>
      by_cases hd : (numberKey d == k) = true
      · have hd' : (numberKey d == k') = false := by
          have hdk : numberKey d = k := by simpa using hd
          have hkk : ¬ k = k' := fun h => hne h.symm
          simp [hdk, hkk]
        have hd2 : (numberKey
            ({ d with
                totalAmount := d.totalAmount + q
                exceedsCeiling := decide (mx ≤ d.totalAmount + q) } : NumberTotal) == k')
            = false := hd'
        rw [List.map_cons, if_pos hd, numberAmountOf_cons_neg _ _ _ hd2,
          numberAmountOf_cons_neg _ _ _ hd', ih]
      · by_cases hd' : (numberKey d == k') = true
        · rw [List.map_cons, if_neg hd, numberAmountOf_cons_pos _ _ _ hd',
            numberAmountOf_cons_pos _ _ _ hd']
        · have hdf : (numberKey d == k') = false := by
            cases hb : (numberKey d == k') with
            | false => rfl
            | true => exact absurd hb hd'
          rw [List.map_cons, if_neg hd, numberAmountOf_cons_neg _ _ _ hdf,
            numberAmountOf_cons_neg _ _ _ hdf, ih]
  · rw [if_neg h]
    clear h
    induction m with
    | nil =>
      have hk : (numberKey
          ({ number := k.2, category := k.1, totalAmount := q,
             exceedsCeiling := decide (mx ≤ q) } : NumberTotal) == k') = false := by
        simp [numberKey, Prod.ext_iff]
        intro h1 h2
        exact absurd (Prod.ext h1.symm h2.symm : k' = k) hne
      rw [List.nil_append, numberAmountOf_cons_neg _ _ _ hk]
    | cons d m ih =>
      by_cases hd : (numberKey d == k') = true
      · rw [List.cons_append, numberAmountOf_cons_pos _ _ _ hd,
          numberAmountOf_cons_pos _ _ _ hd]
      · have hdf : (numberKey d == k') = false := by
          cases hb : (numberKey d == k') with
          | false => rfl
          | true => exact absurd hb hd
        rw [List.cons_append, numberAmountOf_cons_neg _ _ _ hdf,
          numberAmountOf_cons_neg _ _ _ hdf, ih]

theorem numberHasKey_upsert_self (m : List NumberTotal) (k : Category × String)
    (q mx : ℤ) : numberHasKey (upsertNumberTotal m k q mx) k = true := by
  unfold numberHasKey upsertNumberTotal
  by_cases h : m.any (fun d => numberKey d == k) = true
  · rw [if_pos h]
    obtain ⟨d, hd, hdk⟩ := List.any_eq_true.mp h
    refine List.any_eq_true.mpr ⟨_, List.mem_map_of_mem _ hd, ?_⟩
    rw [if_pos hdk]
    exact hdk
  · rw [if_neg h]
    refine List.any_eq_true.mpr ⟨_, List.mem_append_right _ (List.mem_singleton.mpr rfl), ?_⟩
    simp [numberKey]

theorem numberHasKey_upsert_other (m : List NumberTotal) (k k' : Category × String)
    (q mx : ℤ) (hne : k' ≠ k) :
    numberHasKey (upsertNumberTotal m k q mx) k' = numberHasKey m k' := by
  unfold numberHasKey upsertNumberTotal
  by_cases h : m.any (fun d => numberKey d == k) = true
  · rw [if_pos h]
    clear h
    induction m with
    | nil => rfl
    | cons d m ih =>
      by_cases hd : (numberKey d == k) = true
      · have hd' : (numberKey d == k') = false := by
          have hdk : numberKey d = k := by simpa using hd
          have hkk : ¬ k = k' := fun h => hne h.symm
          simp [hdk, hkk]
        have hd2 : (numberKey
            ({ d with
                totalAmount := d.totalAmount + q
                exceedsCeiling := decide (mx ≤ d.totalAmount + q) } : NumberTotal) == k')
            = false := hd'
        rw [List.map_cons, if_pos hd]
        simp only [List.any_cons, hd2, hd', Bool.false_or]
        exact ih
      · rw [List.map_cons, if_neg hd]
        simp only [List.any_cons]
        rw [ih]
  · rw [if_neg h]
    have hk : (numberKey
        ({ number := k.2, category := k.1, totalAmount := q,
           exceedsCeiling := decide (mx ≤ q) } : NumberTotal) == k') = false := by
      simp [numberKey, Prod.ext_iff]
      intro h1 h2
      exact absurd (Prod.ext h1.symm h2.symm : k' = k) hne
    simp [List.any_append, hk]

theorem numberKeys_upsert (m : List NumberTotal) (k : Category × String) (q mx : ℤ) :
    (upsertNumberTotal m k q mx).map numberKey =
      if numberHasKey m k = true then m.map numberKey else m.map numberKey ++ [k] := by
  unfold upsertNumberTotal numberHasKey
  by_cases h : m.any (fun d => numberKey d == k) = true
  · rw [if_pos h, if_pos h, List.map_map]
    refine List.map_congr_left (fun d _ => ?_)
    by_cases hd : (numberKey d == k) = true
    · simp only [Function.comp_apply, if_pos hd]
      rfl
    · simp only [Function.comp_apply, if_neg hd]
  · rw [if_neg h, if_neg h, List.map_append]
    rfl

theorem numberKeys_nodup_upsert (m : List NumberTotal) (k : Category × String)
    (q mx : ℤ) (h : (m.map numberKey).Nodup) :
    ((upsertNumberTotal m k q mx).map numberKey).Nodup := by
  rw [numberKeys_upsert]
  by_cases hk : numberHasKey m k = true
  · rw [if_pos hk]
    exact h
  · rw [if_neg hk]
    refine List.Nodup.append h (List.nodup_singleton k) ?_
    intro x hx hx1
    rw [List.mem_singleton] at hx1
    subst hx1
    obtain ⟨d, hd, hdk⟩ := List.mem_map.mp hx
    exact hk (List.any_eq_true.mpr ⟨d, hd, by simp [hdk]⟩)

theorem numberAmountOf_mem (m : List NumberTotal) (hnd : (m.map numberKey).Nodup)
    (d : NumberTotal) (hd : d ∈ m) : numberAmountOf m (numberKey d) = d.totalAmount := by
  induction m with
  | nil => cases hd
  | cons e m ih =>
    rcases List.mem_cons.mp hd with rfl | hd2
    · exact numberAmountOf_cons_pos _ _ _ (by simp)
    · have hne : (numberKey e == numberKey d) = false := by
        have he : numberKey e ∉ m.map numberKey := (List.nodup_cons.mp (by simpa using hnd)).1
        have : numberKey d ∈ m.map numberKey := List.mem_map_of_mem _ hd2
        simp only [beq_eq_false_iff_ne, ne_eq]
        intro hcon
        rw [hcon] at he
        exact he this
      rw [numberAmountOf_cons_neg _ _ _ hne]
      exact ih (List.nodup_cons.mp (by simpa using hnd)).2 hd2

theorem flag_upsertNumberTotal (m : List NumberTotal) (k : Category × String)
    (q mx : ℤ) (hm : ∀ d ∈ m, d.exceedsCeiling = decide (mx ≤ d.totalAmount)) :
    ∀ d ∈ upsertNumberTotal m k q mx, d.exceedsCeiling = decide (mx ≤ d.totalAmount) := by
  intro d hd
  unfold upsertNumberTotal at hd
  by_cases h : m.any (fun d => numberKey d == k) = true
  · rw [if_pos h] at hd
    obtain ⟨e, he, hed⟩ := List.mem_map.mp hd
    by_cases hek : (numberKey e == k) = true
    · rw [if_pos hek] at hed
      subst hed
      rfl
    · rw [if_neg hek] at hed
      subst hed
      exact hm e he
  · rw [if_neg h] at hd
    rcases List.mem_append.mp hd with h1 | h1
    · exact hm d h1
    · rw [List.mem_singleton] at h1
      subst h1
      rfl

theorem applyNumberContribs_append (mx : ℤ) (m : List NumberTotal)
    (l1 l2 : List ((Category × String) × ℤ)) :
    applyNumberContribs mx m (l1 ++ l2) =
      applyNumberContribs mx (applyNumberContribs mx m l1) l2 :=
  List.foldl_append _ _ _ _

theorem numberAmountOf_applyNumberContribs (l : List ((Category × String) × ℤ))
    (mx : ℤ) (m : List NumberTotal) (k : Category × String) :
    numberAmountOf (applyNumberContribs mx m l) k = numberAmountOf m k + sumForKey l k := by
  induction l generalizing m with
  | nil => simp [applyNumberContribs, sumForKey]
  | cons kv l ih =>
    have hstep : applyNumberContribs mx m (kv :: l)
        = applyNumberContribs mx (upsertNumberTotal m kv.1 kv.2 mx) l := rfl
    rw [hstep, ih]
    by_cases hk : kv.1 = k
    · rw [hk, numberAmountOf_upsert_self]
      simp only [sumForKey, List.filter_cons, hk]
      simp [add_assoc]
    · rw [numberAmountOf_upsert_other _ _ _ _ _ (fun hcon => hk hcon.symm)]
      simp only [sumForKey, List.filter_cons]
      have : ¬ (kv.1 = k) := hk
      simp [this]

theorem numberHasKey_applyNumberContribs (l : List ((Category × String) × ℤ))
    (mx : ℤ) (m : List NumberTotal) (k : Category × String) :
    numberHasKey (applyNumberContribs mx m l) k =
      (numberHasKey m k || l.any (fun kv => kv.1 == k)) := by
  induction l generalizing m with
  | nil => simp [applyNumberContribs]
  | cons kv l ih =>
    have hstep : applyNumberContribs mx m (kv :: l)
        = applyNumberContribs mx (upsertNumberTotal m kv.1 kv.2 mx) l := rfl
    rw [hstep, ih]
    by_cases hk : kv.1 = k
    · rw [hk, numberHasKey_upsert_self]
      simp [hk]
    · rw [numberHasKey_upsert_other _ _ _ _ _ (fun hcon => hk hcon.symm)]
      have : (kv.1 == k) = false := by simpa using hk
      simp [this]

theorem numberKeys_nodup_applyNumberContribs (l : List ((Category × String) × ℤ))
    (mx : ℤ) (m : List NumberTotal) (h : (m.map numberKey).Nodup) :
    ((applyNumberContribs mx m l).map numberKey).Nodup := by
  induction l generalizing m with
  | nil => exact h
  | cons kv l ih => exact ih _ (numberKeys_nodup_upsert _ _ _ _ h)

theorem flag_applyNumberContribs (l : List ((Category × String) × ℤ)) (mx : ℤ)
    (m : List NumberTotal) (hm : ∀ d ∈ m, d.exceedsCeiling = decide (mx ≤ d.totalAmount)) :
    ∀ d ∈ applyNumberContribs mx m l, d.exceedsCeiling = decide (mx ≤ d.totalAmount) := by
  induction l generalizing m with
  | nil => exact hm
  | cons kv l ih => exact ih _ (flag_upsertNumberTotal _ _ _ _ hm)

theorem numEntryStep_eq (mx : ℤ) (m : List NumberTotal) (e : Entry) :
    numEntryStep mx m e =
      applyNumberContribs mx m
        ((expandedOrRaw e).map (fun num => ((e.category, num), perComboAmount e num))) := by
  unfold numEntryStep
  induction expandedOrRaw e generalizing m with
  | nil => rfl
  | cons num nums ih =>
    rw [List.foldl_cons, List.map_cons]
    exact ih _

theorem numEntriesFold_eq (entries : List Entry) (mx : ℤ) (m : List NumberTotal) :
    entries.foldl (numEntryStep mx) m =
      applyNumberContribs mx m
        (entries.flatMap
          (fun e => (expandedOrRaw e).map (fun num => ((e.category, num), perComboAmount e num)))) := by
  induction entries generalizing m with
  | nil => rfl
  | cons e es ih =>
    rw [List.foldl_cons, List.flatMap_cons, applyNumberContribs_append, ← numEntryStep_eq]
    exact ih _

theorem numTicketsFold_eq (ts : List Ticket) (mx : ℤ) (m : List NumberTotal) :
    ts.foldl (numTicketStep mx) m =
      applyNumberContribs mx m
        (ts.flatMap (fun t => t.entries.flatMap
          (fun e => (expandedOrRaw e).map (fun num => ((e.category, num), perComboAmount e num))))) := by
  induction ts generalizing m with
  | nil => rfl
  | cons t ts ih =>
    rw [List.foldl_cons, List.flatMap_cons, applyNumberContribs_append]
    unfold numTicketStep
    rw [numEntriesFold_eq]
    exact ih _

theorem getNumberTotals_eq (tickets : List Ticket) (date : String) (mx : ℤ) :
    getNumberTotals tickets date mx =
      applyNumberContribs mx [] (numberContribs tickets date) := by
  unfold getNumberTotals numberContribs
  exact numTicketsFold_eq _ _ _

theorem numberKeyTotal_eq_sumForKey (tickets : List Ticket) (date : String)
    (category : Category) (num : String) :
    numberKeyTotal tickets date category num
      = sumForKey (numberContribs tickets date) (category, num) := rfl

/-- C6: `getNumberTotals` aggregates only tickets whose date string exactly
equals the given date and that are not soft-deleted, keyed by
(category, expanded number), and every `NumberTotal` it returns has
`exceedsCeiling` true if and only if its `totalAmount` is greater than or
equal to `perNumberMax` (non-strict, unlike the strict bound of
`findRiskyNumbers`). -/
theorem C6_number_totals (tickets : List Ticket) (date : String) (perNumberMax : ℤ) :
    (∀ nt ∈ getNumberTotals tickets date perNumberMax,
        (nt.exceedsCeiling = true ↔ perNumberMax ≤ nt.totalAmount) ∧
        nt.totalAmount = numberKeyTotal tickets date nt.category nt.number) ∧
    (∀ category num,
        (category, num) ∈ (numberContribs tickets date).map Prod.fst →
        ∃ nt ∈ getNumberTotals tickets date perNumberMax,
          nt.category = category ∧ nt.number = num ∧
          nt.totalAmount = numberKeyTotal tickets date category num) ∧
    getNumberTotals tickets date perNumberMax =
      getNumberTotals (tickets.filter (fun t => !t.deleted && t.date == date)) date
        perNumberMax := by
  have heq := getNumberTotals_eq tickets date perNumberMax
  have hnd : ((getNumberTotals tickets date perNumberMax).map numberKey).Nodup := by
    rw [heq]
    exact numberKeys_nodup_applyNumberContribs _ _ _ (by simp)
  have hamount : ∀ nt ∈ getNumberTotals tickets date perNumberMax,
      nt.totalAmount = numberKeyTotal tickets date nt.category nt.number := by
    intro nt hnt
    have h1 : numberAmountOf (getNumberTotals tickets date perNumberMax) (numberKey nt)
        = nt.totalAmount := numberAmountOf_mem _ hnd nt hnt
    rw [heq, numberAmountOf_applyNumberContribs] at h1
    have h0 : numberAmountOf [] (numberKey nt) = 0 := rfl
    rw [h0, zero_add] at h1
    rw [numberKeyTotal_eq_sumForKey]
    exact h1.symm
  refine ⟨?_, ?_, ?_⟩
  · intro nt hnt
    refine ⟨?_, hamount nt hnt⟩
    have hnt2 : nt ∈ applyNumberContribs perNumberMax [] (numberContribs tickets date) := by
      rw [← heq]
      exact hnt
    have hflag : nt.exceedsCeiling = decide (perNumberMax ≤ nt.totalAmount) :=
      flag_applyNumberContribs (numberContribs tickets date) perNumberMax []
        (fun d hd => absurd hd (by simp)) nt hnt2
    rw [hflag]
    exact decide_eq_true_iff
  · intro category num hk
    obtain ⟨kv, hkv, hkv1⟩ := List.mem_map.mp hk
    have hany : (numberContribs tickets date).any (fun kv => kv.1 == (category, num)) = true :=
      List.any_eq_true.mpr ⟨kv, hkv, by simp [hkv1]⟩
    have hhas : numberHasKey (getNumberTotals tickets date perNumberMax) (category, num)
        = true := by
      rw [heq, numberHasKey_applyNumberContribs]
      simp [hany]
    obtain ⟨nt, hntm, hntk⟩ := List.any_eq_true.mp hhas
    have hk2 : numberKey nt = (category, num) := by simpa using hntk
    have hcat : nt.category = category := congrArg Prod.fst hk2
    have hnum : nt.number = num := congrArg Prod.snd hk2
    refine ⟨nt, hntm, hcat, hnum, ?_⟩
    rw [hamount nt hntm, hcat, hnum]
  · unfold getNumberTotals
    have hff : (tickets.filter (fun t => !t.deleted && t.date == date)).filter
        (fun t => !t.deleted && t.date == date)
        = tickets.filter (fun t => !t.deleted && t.date == date) := by
      rw [List.filter_filter]
      simp only [Bool.and_self]
    rw [hff]

/-! Accumulator lemmas for `computeActualPayout`. -/

theorem payoutItems_eq (result : LotteryResult) (category : Category)
    (items : List PerComboTotal) (tp : ℤ) :
    payoutItems result category tp items =
      tp + ((items.filter (fun p => isWin result p.combo category)).map
        (fun p => p.payoutRate * p.unitPrice * p.quantity)).sum := by
  induction items generalizing tp with
  | nil => simp [payoutItems]
  | cons p ps ih =>
    unfold payoutItems
    rw [List.foldl_cons]
    by_cases hw : isWin result p.combo category = true
    · have hstep := ih (tp + p.payoutRate * p.unitPrice * p.quantity)
      unfold payoutItems at hstep
      rw [if_pos hw, hstep, List.filter_cons_of_pos (by simpa using hw), List.map_cons,
        List.sum_cons]
      ring
    · have hstep := ih tp
      unfold payoutItems at hstep
      rw [if_neg hw, hstep, List.filter_cons_of_neg (by simpa using hw)]

theorem payoutEntryStep_none (result : LotteryResult) (tp : ℤ) (e : Entry)
    (h : e.perComboTotals = none) : payoutEntryStep result tp e = tp := by
  unfold payoutEntryStep
  rw [h]

theorem payoutEntryStep_some (result : LotteryResult) (tp : ℤ) (e : Entry)
    (items : List PerComboTotal) (h : e.perComboTotals = some items) :
    payoutEntryStep result tp e = payoutItems result e.category tp items := by
  unfold payoutEntryStep
  rw [h]

theorem payoutTicketStep_deleted (result : LotteryResult) (tp : ℤ) (t : Ticket)
    (h : t.deleted = true) : payoutTicketStep result tp t = tp := by
  unfold payoutTicketStep
  rw [if_pos h]

theorem payoutTicketStep_live (result : LotteryResult) (tp : ℤ) (t : Ticket)
    (h : ¬ t.deleted = true) :
    payoutTicketStep result tp t = t.entries.foldl (payoutEntryStep result) tp := by
  unfold payoutTicketStep
  rw [if_neg h]

theorem payoutEntriesFold_eq (result : LotteryResult) (entries : List Entry) (tp : ℤ) :
    entries.foldl (payoutEntryStep result) tp =
      tp + (entries.flatMap
        (fun e => ((e.perComboTotals.getD []).filter (fun p => isWin result p.combo e.category)).map
          (fun p => p.payoutRate * p.unitPrice * p.quantity))).sum := by
  induction entries generalizing tp with
  | nil => simp
  | cons e es ih =>
    rw [List.foldl_cons, List.flatMap_cons, List.sum_append]
    cases hpc : e.perComboTotals with
    | none =>
      rw [payoutEntryStep_none result tp e hpc, ih tp]
      simp
    | some items =>
      rw [payoutEntryStep_some result tp e items hpc, payoutItems_eq, ih]
      simp only [Option.getD_some]
      ring

theorem payoutTicketsFold_eq (result : LotteryResult) (tickets : List Ticket) (tp : ℤ) :
    tickets.foldl (payoutTicketStep result) tp = tp + (winningAmounts tickets result).sum := by
  induction tickets generalizing tp with
  | nil => simp [winningAmounts]
  | cons t ts ih =>
    rw [List.foldl_cons]
    by_cases hdel : t.deleted = true
    · rw [payoutTicketStep_deleted result tp t hdel, ih]
      have hfilter : (t :: ts).filter (fun t => !t.deleted) = ts.filter (fun t => !t.deleted) := by
        simp [List.filter_cons, hdel]
      unfold winningAmounts
      rw [hfilter]
    · have hnd : (!t.deleted) = true := by
        cases hb : t.deleted with
        | false => rfl
        | true => exact absurd hb hdel
      have hfilter : (t :: ts).filter (fun t => !t.deleted)
          = t :: ts.filter (fun t => !t.deleted) := by
        simp [List.filter_cons, hnd]
      rw [payoutTicketStep_live result tp t hdel, payoutEntriesFold_eq, ih]
      unfold winningAmounts
      rw [hfilter, List.flatMap_cons, List.sum_append]
      ring

/-- C3: `computeActualPayout tickets result` returns the sum of
`payoutRate × unitPrice × quantity` over every `perComboTotal` of every entry
of every non-soft-deleted ticket whose combo wins, where a combo wins iff:
category `3top` or `3tod` and the combo equals `result.threeTop`; category
`2top` and the combo equals the last 2 digits of `threeTop`; category `2down`
and the combo equals `result.twoDown`; category `3down` and the combo equals
`result.threeTod3` or `result.threeTod4`; and combos of `3back` and `2back`
never win. -/
theorem C3_actual_payout (tickets : List Ticket) (result : LotteryResult) :
    computeActualPayout tickets result = (winningAmounts tickets result).sum ∧
    (∀ combo, isWin result combo Category.c3top = true ↔ result.threeTop = some combo) ∧
    (∀ combo, isWin result combo Category.c3tod = true ↔ result.threeTop = some combo) ∧
    (∀ combo s, result.threeTop = some s →
      (isWin result combo Category.c2top = true ↔ combo = sliceLast2 s)) ∧
    (∀ combo, isWin result combo Category.c2down = true ↔ result.twoDown = some combo) ∧
    (∀ combo, isWin result combo Category.c3down = true ↔
      result.threeTod3 = some combo ∨ result.threeTod4 = some combo) ∧
    (∀ combo, isWin result combo Category.c3back = false ∧
      isWin result combo Category.c2back = false) := by
  refine ⟨?_, ?_, ?_, ?_, ?_, ?_, ?_⟩
  · have h := payoutTicketsFold_eq result tickets 0
    unfold computeActualPayout
    rw [h, zero_add]
  · intro combo
    simp [isWin]
  · intro combo
    simp [isWin]
  · intro combo s hs
    simp only [isWin, twoTopOf, hs, beq_iff_eq]
    exact ⟨fun h => h.symm, fun h => h.symm⟩
  · intro combo
    simp [isWin]
  · intro combo
    simp [isWin]
  · intro combo
    exact ⟨rfl, rfl⟩

/-! Entry-computation helpers. -/

theorem foldl_soldAmount_eq (l : List PerComboTotal) (a : ℤ) :
    l.foldl (fun sum combo => sum + combo.soldAmount) a
      = a + (l.map PerComboTotal.soldAmount).sum := by
  induction l generalizing a with
  | nil => simp
  | cons p ps ih =>
    rw [List.foldl_cons, ih, List.map_cons, List.sum_cons]
    ring

theorem computeEntryTotals_ok (entry : EntryInput) (settings : Settings)
    (blockedNumbers : List BlockedNumber) (E : Entry)
    (h : computeEntryTotals entry settings blockedNumbers = Except.ok E) :
    ∃ expanded, expandNumber entry.raw entry.category = Except.ok expanded ∧
      E.toEntryInput = entry ∧
      E.expanded = some expanded ∧
      E.perComboTotals = some (expanded.map (perComboOf entry settings blockedNumbers)) ∧
      E.total = some (if entry.category = Category.c3tod ∨ entry.category = Category.c2tod
        then entry.unitPrice * entry.quantity
        else (expanded.map (perComboOf entry settings blockedNumbers)).foldl
          (fun sum combo => sum + combo.soldAmount) 0) := by
  unfold computeEntryTotals at h
  cases hx : expandNumber entry.raw entry.category with
  | error e =>
    rw [hx] at h
    cases h
  | ok expanded =>
    rw [hx] at h
    dsimp only at h
    injection h with hE
    subst hE
    exact ⟨expanded, rfl, rfl, rfl, rfl, rfl⟩

theorem find?_first_match {α : Type} (p : α → Bool) (pre : List α) (b : α) (post : List α)
    (hb : p b = true) (hpre : ∀ x ∈ pre, ¬ p x = true) :
    (pre ++ b :: post).find? p = some b := by
  induction pre with
  | nil =>
    rw [List.nil_append]
    exact List.find?_cons_of_pos _ hb
  | cons x xs ih =>
    rw [List.cons_append, List.find?_cons_of_neg _ (hpre x (List.mem_cons_self x xs))]
    exact ih (fun y hy => hpre y (List.mem_cons_of_mem x hy))

/-- C2: for every entry input whose raw string is valid, `computeEntryTotals`
returns `total = unitPrice × quantity` when the category is `3tod` or `2tod`
(the customer is charged once), and `total` = the sum of `soldAmount` over
all `perComboTotals` for every other category. -/
theorem C2_entry_total (entry : EntryInput) (settings : Settings)
    (blockedNumbers : List BlockedNumber) (E : Entry)
    (h : computeEntryTotals entry settings blockedNumbers = Except.ok E) :
    ((entry.category = Category.c3tod ∨ entry.category = Category.c2tod) →
      E.total = some (entry.unitPrice * entry.quantity)) ∧
    (¬ (entry.category = Category.c3tod ∨ entry.category = Category.c2tod) →
      E.total = some (((E.perComboTotals.getD []).map PerComboTotal.soldAmount).sum)) := by
  obtain ⟨expanded, hx, hinp, hexp, hpcs, htot⟩ :=
    computeEntryTotals_ok entry settings blockedNumbers E h
  constructor
  · intro htod
    rw [htot, if_pos htod]
  · intro htod
    rw [htot, if_neg htod, hpcs]
    simp only [Option.getD_some]
    rw [foldl_soldAmount_eq, zero_add]

/-- C8: for each combo of the expansion of an entry, `computeEntryTotals`
sets the `payoutRate` of that combo to the `payoutOverride` of the first
enabled blocked number matching the combo and the entry category; with no such match the
rate is the default `settings.payouts[category]`; and `soldAmount` is
`unitPrice × quantity` in both cases. -/
theorem C8_blocked_override (entry : EntryInput) (settings : Settings)
    (blockedNumbers : List BlockedNumber) (E : Entry) (pcs : List PerComboTotal)
    (h : computeEntryTotals entry settings blockedNumbers = Except.ok E)
    (hpcs : E.perComboTotals = some pcs) :
    ∀ pc ∈ pcs,
      pc.soldAmount = entry.unitPrice * entry.quantity ∧
      (∀ pre b post,
        blockedNumbers = pre ++ b :: post →
        b.enabled = true → b.number = pc.combo → b.category = entry.category →
        (∀ b2 ∈ pre,
          ¬ (b2.enabled = true ∧ b2.number = pc.combo ∧ b2.category = entry.category)) →
        pc.payoutRate = b.payoutOverride) ∧
      ((∀ b ∈ blockedNumbers,
          ¬ (b.enabled = true ∧ b.number = pc.combo ∧ b.category = entry.category)) →
        pc.payoutRate = settings.payouts entry.category) := by
  obtain ⟨expanded, hx, hinp, hexp, hpcs2, htot⟩ :=
    computeEntryTotals_ok entry settings blockedNumbers E h
  rw [hpcs] at hpcs2
  injection hpcs2 with hpcs3
  subst hpcs3
  intro pc hpc
  obtain ⟨combo, hcm, rfl⟩ := List.mem_map.mp hpc
  have hrate : (perComboOf entry settings blockedNumbers combo).payoutRate
      = (match findBlockedNumber combo entry.category blockedNumbers with
        | some b => b.payoutOverride
        | none => settings.payouts entry.category) := rfl
  have hcombo : (perComboOf entry settings blockedNumbers combo).combo = combo := rfl
  refine ⟨rfl, ?_, ?_⟩
  · intro pre b post hsplit hen hnum hcat hpre
    have hfind : findBlockedNumber combo entry.category blockedNumbers = some b := by
      unfold findBlockedNumber
      rw [hsplit]
      refine find?_first_match _ pre b post ?_ ?_
      · rw [hcombo] at hnum
        simp [hnum, hcat, hen]
      · intro x hx2
        have := hpre x hx2
        rw [hcombo] at this
        simp only [Bool.and_eq_true, beq_iff_eq]
        intro hcon
        exact this ⟨hcon.2, hcon.1.1, hcon.1.2⟩
    rw [hrate, hfind]
  · intro hnone
    have hfind : findBlockedNumber combo entry.category blockedNumbers = none := by
      unfold findBlockedNumber
      rw [List.find?_eq_none]
      intro x hx2
      have := hnone x hx2
      rw [hcombo] at this
      simp only [Bool.and_eq_true, beq_iff_eq]
      intro hcon
      exact this ⟨hcon.2, hcon.1.1, hcon.1.2⟩
    rw [hrate, hfind]

/-- C9: `expandNumber` raises a format error for every raw string containing
a non-digit character, and a distinct length error for every nonempty
all-digit raw string whose length differs from the digit length of the category;
`computeEntryTotals` propagates the error and produces no entry; and no
error is raised on valid input. -/
theorem C9_validation (raw : String) (category : Category) :
    ((∃ c ∈ raw.data, ¬ c.isDigit = true) →
      expandNumber raw category = Except.error (NumError.invalidFormat raw)) ∧
    (raw.data ≠ [] → (∀ c ∈ raw.data, c.isDigit = true) →
      raw.length ≠ CATEGORY_DIGIT_LENGTH category →
      expandNumber raw category = Except.error (NumError.invalidLength raw category)) ∧
    (raw.data ≠ [] → (∀ c ∈ raw.data, c.isDigit = true) →
      raw.length = CATEGORY_DIGIT_LENGTH category →
      ∃ l, expandNumber raw category = Except.ok l) ∧
    (∀ (entry : EntryInput) (settings : Settings) (blockedNumbers : List BlockedNumber)
        (err : NumError),
      expandNumber entry.raw entry.category = Except.error err →
      computeEntryTotals entry settings blockedNumbers = Except.error err) := by
  refine ⟨?_, ?_, ?_, ?_⟩
  · intro hbad
    have hall : raw.data.all (fun c => c.isDigit) = false := by
      obtain ⟨c, hc, hcd⟩ := hbad
      rcases hb : raw.data.all (fun c => c.isDigit) with _ | _
      · rfl
      · exact absurd (List.all_eq_true.mp hb c hc) hcd
    have hnum : isNumericString raw = false := by
      unfold isNumericString
      rw [hall, Bool.and_false]
    have hval : validateNumber raw category = Except.error (NumError.invalidFormat raw) := by
      unfold validateNumber
      rw [if_neg (by simp [hnum])]
    unfold expandNumber
    rw [hval]
  · intro hne hall hlen
    have hnum : isNumericString raw = true := by
      unfold isNumericString
      rw [List.all_eq_true.mpr hall, Bool.and_true]
      simpa using hne
    have hval : validateNumber raw category
        = Except.error (NumError.invalidLength raw category) := by
      unfold validateNumber
      rw [if_pos hnum, if_neg hlen]
    unfold expandNumber
    rw [hval]
  · intro hne hall hlen
    have hnum : isNumericString raw = true := by
      unfold isNumericString
      rw [List.all_eq_true.mpr hall, Bool.and_true]
      simpa using hne
    have hval : validateNumber raw category = Except.ok () := by
      unfold validateNumber
      rw [if_pos hnum, if_pos hlen]
    unfold expandNumber
    rw [hval]
    dsimp only
    split_ifs <;> exact ⟨_, rfl⟩
  · intro entry settings blockedNumbers err herr
    unfold computeEntryTotals
    rw [herr]

/-- C10: in `getNumberTotals`, the amount added for an expanded number with
no matching `perComboTotal` is the entry field `unitPrice` alone (quantity
is ignored); with a matching record the amount is the `soldAmount` of that
record; and the fallback amount is unchanged by the entry quantity. -/
theorem C10_fallback_unit_price (e : Entry) (num : String) :
    ((e.perComboTotals.getD []).find? (fun p => p.combo == num) = none →
      perComboAmount e num = e.unitPrice) ∧
    (∀ p, (e.perComboTotals.getD []).find? (fun p => p.combo == num) = some p →
      perComboAmount e num = p.soldAmount) ∧
    (∀ q : ℤ,
      perComboAmount { e with toEntryInput := { e.toEntryInput with quantity := q } } num
        = perComboAmount e num) := by
  refine ⟨?_, ?_, fun q => rfl⟩
  · intro hnone
    unfold perComboAmount
    cases hpc : e.perComboTotals with
    | none => rfl
    | some ps =>
      rw [hpc] at hnone
      simp only [Option.getD_some] at hnone
      dsimp only
      rw [hnone]
  · intro p hp
    unfold perComboAmount
    cases hpc : e.perComboTotals with
    | none =>
      rw [hpc] at hp
      simp at hp
    | some ps =>
      rw [hpc] at hp
      simp only [Option.getD_some] at hp
      dsimp only
      rw [hp]

/-- C7: `isDateInDrawPeriod` holds exactly when the period anchor is day 1 of
month M and the ticket is dated day 18 or later of month M−1 (also across a
year boundary) or exactly day 1 of month M; or the anchor is day 16 of month
M and the ticket is dated day 2 through 17 of month M; every other ticket
date is outside the period. -/
theorem C7_draw_period (t dp : GDate) (ht : t.month < 12) (hdp : dp.month < 12) :
    isDateInDrawPeriod t dp = true ↔
      (dp.day = 1 ∧
        ((monthIndex t = monthIndex dp - 1 ∧ 18 ≤ t.day) ∨
         (monthIndex t = monthIndex dp ∧ t.day = 1))) ∨
      (dp.day = 16 ∧ monthIndex t = monthIndex dp ∧ 2 ≤ t.day ∧ t.day ≤ 17) := by
  unfold isDateInDrawPeriod monthIndex
  by_cases h1 : dp.day = 1
  · rw [if_pos h1]
    simp only [Bool.or_eq_true, Bool.and_eq_true, beq_iff_eq, decide_eq_true_iff]
    by_cases hm : dp.month = 0
    · rw [if_pos hm, if_pos hm]
      omega
    · rw [if_neg hm, if_neg hm]
      omega
  · rw [if_neg h1]
    by_cases h16 : dp.day = 16
    · rw [if_pos h16]
      simp only [Bool.and_eq_true, beq_iff_eq, decide_eq_true_iff]
      omega
    · rw [if_neg h16]
      simp only [Bool.false_eq_true, false_iff]
      intro hcase
      rcases hcase with ⟨hbad, _⟩ | ⟨hbad, _⟩
      · exact h1 hbad
      · exact h16 hbad

/-! Expansion-count helpers. -/

theorem length_sortStrings (l : List String) : (sortStrings l).length = l.length :=
  (List.perm_insertionSort _ l).length_eq

theorem getExpansionCount_3tod (raw : String) :
    getExpansionCount raw Category.c3tod =
      (if (dedupChars [] raw.data).length = 1 then 1
       else if (dedupChars [] raw.data).length = 2 then 3 else 6) := rfl

theorem getExpansionCount_2tod (raw : String) :
    getExpansionCount raw Category.c2tod =
      (if raw.data.getD 0 ' ' = raw.data.getD 1 ' ' then 1 else 2) := rfl

theorem perms_three (a b c : Char) :
    perms [a, b, c] = [[a, b, c], [a, c, b], [b, a, c], [b, c, a], [c, a, b], [c, b, a]] := rfl

theorem eq_three {α : Type} (l : List α) (h : l.length = 3) :
    ∃ a b c, l = [a, b, c] := by
  cases l with
  | nil => simp at h
  | cons a l1 =>
    cases l1 with
    | nil => simp at h
    | cons b l2 =>
      cases l2 with
      | nil => simp at h
      | cons c l3 =>
        cases l3 with
        | nil => exact ⟨a, b, c, rfl⟩
        | cons d l4 => simp [List.length_cons] at h

theorem eq_two {α : Type} (l : List α) (h : l.length = 2) :
    ∃ a b, l = [a, b] := by
  cases l with
  | nil => simp at h
  | cons a l1 =>
    cases l1 with
    | nil => simp at h
    | cons b l2 =>
      cases l2 with
      | nil => exact ⟨a, b, rfl⟩
      | cons c l3 => simp [List.length_cons] at h

/-- C1 (evidence of the code/test divergence): `expandNumber` returns the
identity expansion for the back categories — `["123"]` for `("123", 3back)`
and `["34"]` for `("34", 2back)` — and in particular not the permutation
sets the specification (and the expansion test suite of the repository itself)
prescribe for them. -/
theorem C1_back_expansion_bug :
    expandNumber "123" Category.c3back = Except.ok ["123"] ∧
    expandNumber "34" Category.c2back = Except.ok ["34"] ∧
    expandNumber "123" Category.c3back
      ≠ Except.ok ["123", "132", "213", "231", "312", "321"] ∧
    expandNumber "34" Category.c2back ≠ Except.ok ["34", "43"] := by
  refine ⟨rfl, rfl, ?_, ?_⟩
  · intro hcon
    rw [show expandNumber "123" Category.c3back = Except.ok ["123"] from rfl] at hcon
    injection hcon with h2
    exact absurd h2 (by decide)
  · intro hcon
    rw [show expandNumber "34" Category.c2back = Except.ok ["34"] from rfl] at hcon
    injection hcon with h2
    exact absurd h2 (by decide)

/-- C4: for every raw string that is numeric and of the required
digit length of the category, any of the eight, `getExpansionCount`
equals the length of the list `expandNumber` returns. -/
theorem C4_expansion_count (raw : String) (category : Category)
    (hnum : isNumericString raw = true)
    (hlen : raw.length = CATEGORY_DIGIT_LENGTH category) :
    ∃ l, expandNumber raw category = Except.ok l ∧
      l.length = getExpansionCount raw category := by
  have hval : validateNumber raw category = Except.ok () := by
    unfold validateNumber
    rw [if_pos hnum, if_pos hlen]
  clear hnum
  cases category with
  | c3tod =>
    obtain ⟨data⟩ := raw
    have h3 : data.length = 3 := hlen
    obtain ⟨a, b, c, rfl⟩ := eq_three data h3
    unfold expandNumber
    rw [hval]
    dsimp only
    rw [if_pos rfl]
    refine ⟨_, rfl, ?_⟩
    rw [length_sortStrings, List.length_map, getExpansionCount_3tod]
    show (getUniquePermutations [a, b, c]).length =
      if (dedupChars [] [a, b, c]).length = 1 then 1
      else if (dedupChars [] [a, b, c]).length = 2 then 3 else 6
    by_cases hab : a = b
    · by_cases hac : a = c
      · subst hab
        subst hac
        simp [getUniquePermutations, perms_three, dedupKeepFirst, dedupChars]
      · have hca : ¬ c = a := fun h => hac h.symm
        subst hab
        simp [getUniquePermutations, perms_three, dedupKeepFirst, dedupChars, hac, hca]
    · by_cases hbc : b = c
      · have hba : ¬ b = a := fun h => hab h.symm
        subst hbc
        simp [getUniquePermutations, perms_three, dedupKeepFirst, dedupChars, hab, hba]
      · by_cases hac : a = c
        · have hba : ¬ b = a := fun h => hab h.symm
          subst hac
          simp [getUniquePermutations, perms_three, dedupKeepFirst, dedupChars, hab, hba]
        · have hba : ¬ b = a := fun h => hab h.symm
          have hca : ¬ c = a := fun h => hac h.symm
          have hcb : ¬ c = b := fun h => hbc h.symm
          simp [getUniquePermutations, perms_three, dedupKeepFirst, dedupChars,
            hab, hba, hac, hca, hbc, hcb]
  | c2tod =>
    obtain ⟨data⟩ := raw
    have h2 : data.length = 2 := hlen
    obtain ⟨a, b, rfl⟩ := eq_two data h2
    unfold expandNumber
    rw [hval]
    dsimp only
    rw [if_neg (by simp), if_pos rfl]
    simp only [List.getD_cons_succ, List.getD_cons_zero]
    by_cases hab : a = b
    · subst hab
      rw [if_pos rfl]
      refine ⟨_, rfl, ?_⟩
      rw [getExpansionCount_2tod]
      show (1 : Nat) = if a = a then 1 else 2
      rw [if_pos rfl]
    · rw [if_neg (by
        intro hcon
        injection hcon with h2
        simp at h2
        exact hab h2.1)]
      refine ⟨_, rfl, ?_⟩
      rw [length_sortStrings, getExpansionCount_2tod]
      show (2 : Nat) = if a = b then 1 else 2
      rw [if_neg hab]
  | c3top =>
    refine ⟨[raw], ?_, rfl⟩
    unfold expandNumber
    rw [hval]
    dsimp only
    rw [if_neg (by simp), if_neg (by simp)]
  | c3down =>
    refine ⟨[raw], ?_, rfl⟩
    unfold expandNumber
    rw [hval]
    dsimp only
    rw [if_neg (by simp), if_neg (by simp)]
  | c3back =>
    refine ⟨[raw], ?_, rfl⟩
    unfold expandNumber
    rw [hval]
    dsimp only
    rw [if_neg (by simp), if_neg (by simp)]
  | c2top =>
    refine ⟨[raw], ?_, rfl⟩
    unfold expandNumber
    rw [hval]
    dsimp only
    rw [if_neg (by simp), if_neg (by simp)]
  | c2down =>
    refine ⟨[raw], ?_, rfl⟩
    unfold expandNumber
    rw [hval]
    dsimp only
    rw [if_neg (by simp), if_neg (by simp)]
  | c2back =>
    refine ⟨[raw], ?_, rfl⟩
    unfold expandNumber
    rw [hval]
    dsimp only
    rw [if_neg (by simp), if_neg (by simp)]

/-- C2 witness: the plain `3top` entry at price 100 is summed over its one
per-combo record. -/
theorem C2_entry_total_witness :
    sampleEntryOut.total
      = some (((sampleEntryOut.perComboTotals.getD []).map PerComboTotal.soldAmount).sum) :=
  (C2_entry_total sampleEntryInput sampleSettings [] sampleEntryOut rfl).2 (by decide)

/-- C3 witness: the payout refinement evaluated on a concrete ticket, and a
`2top` combo winning on the last two digits of `threeTop = "123"`. -/
theorem C3_actual_payout_witness :
    computeActualPayout [sampleTicket] sampleResult
      = (winningAmounts [sampleTicket] sampleResult).sum ∧
    isWin sampleResult "23" Category.c2top = true :=
  ⟨(C3_actual_payout [sampleTicket] sampleResult).1,
    ((C3_actual_payout [sampleTicket] sampleResult).2.2.2.1 "23" "123" rfl).mpr rfl⟩

/-- C4 witness: `"112"` under `3tod` expands to a list whose length matches
`getExpansionCount` (3). -/
theorem C4_expansion_count_witness :
    ∃ l, expandNumber "112" Category.c3tod = Except.ok l ∧
      l.length = getExpansionCount "112" Category.c3tod :=
  C4_expansion_count "112" Category.c3tod rfl rfl

/-- C5 witness: with 6000 sold on `(3top, "123")` and threshold 5000, the
pair is reported risky. -/
theorem C5_risky_numbers_witness :
    ∃ r ∈ findRiskyNumbers [sampleTicket] 5000,
      r.category = Category.c3top ∧ r.combo = "123" ∧
      r.soldAmount = comboKeyTotal [sampleTicket] Category.c3top "123" :=
  (C5_risky_numbers [sampleTicket] 5000).2.1 Category.c3top "123" (by decide) (by decide)

/-- C6 witness: the `(3top, "123")` number total exists for the exact date of
the sample ticket. -/
theorem C6_number_totals_witness :
    ∃ nt ∈ getNumberTotals [sampleTicket] "2024-01-01" 50000,
      nt.category = Category.c3top ∧ nt.number = "123" ∧
      nt.totalAmount = numberKeyTotal [sampleTicket] "2024-01-01" Category.c3top "123" :=
  (C6_number_totals [sampleTicket] "2024-01-01" 50000).2.1 Category.c3top "123" (by decide)

/-- C7 witness: a ticket dated 18 December 2024 belongs to the period
anchored at 1 January 2025. -/
theorem C7_draw_period_witness :
    isDateInDrawPeriod ⟨2024, 11, 18⟩ ⟨2025, 0, 1⟩ = true :=
  (C7_draw_period ⟨2024, 11, 18⟩ ⟨2025, 0, 1⟩ (by decide) (by decide)).mpr
    (Or.inl ⟨rfl, Or.inl ⟨by decide, by decide⟩⟩)

/-- C8 witness: the enabled override for `("123", 3top)` replaces the default
rate on the matching combo. -/
theorem C8_blocked_override_witness :
    (⟨"123", 100, 1, 100, 10⟩ : PerComboTotal).payoutRate = sampleBlocked.payoutOverride :=
  ((C8_blocked_override sampleEntryInput sampleSettings [sampleBlocked]
      sampleEntryBlockedOut [⟨"123", 100, 1, 100, 10⟩] rfl rfl
      ⟨"123", 100, 1, 100, 10⟩ (List.mem_singleton.mpr rfl)).2.1
    [] sampleBlocked [] rfl rfl rfl rfl (fun b2 hb2 => absurd hb2 (by simp)))

/-- C9 witness: `"12a"` raises the format error. -/
theorem C9_validation_witness :
    expandNumber "12a" Category.c3top = Except.error (NumError.invalidFormat "12a") :=
  (C9_validation "12a" Category.c3top).1 ⟨'a', by decide, by decide⟩

/-- C10 witness: with an empty `perComboTotals` list the contribution of
`"123"` falls back to the unit price, ignoring the quantity of 5. -/
theorem C10_fallback_unit_price_witness :
    perComboAmount sampleEntryNoCombos "123" = sampleEntryNoCombos.unitPrice :=
  (C10_fallback_unit_price sampleEntryNoCombos "123").1 rfl

end Bookie
